import Mathlib

/-!
Shallow embedding of `iavl_versioned_tree.go` (package `iavl`): the
`VersionedTree` orchestrator, which keeps a mutable working orphaning tree,
a map from saved version numbers to frozen orphaning trees, the latest
saved version number, and a node database handle.

The orchestrator's collaborators (`orphaningTree`, `IAVLTree`, `nodeDB`)
are not part of the given source file; the few operations the orchestrator
invokes on them are modelled from the spec and are each marked
`Modelled from the spec:` in their doc comment.  Go maps are embedded as
association lists, Go byte slices as `List Nat`, and `error` returns as
explicit error inductives in `Except`.
-/

namespace Iavl

/-- Byte strings (Go `[]byte`) as lists of bytes. -/
abbrev Bytes := List Nat

/-- Modelled from the spec: the part of a tree node the orchestrator reads —
its content `hash` and the `version` stamped on it (`createdAtVersion` /
the root's version as read by `Load`). -/
structure TreeNode where
  hash : Bytes
  version : Nat
deriving DecidableEq, Repr

/-- Modelled from the spec: stamping a not-yet-stamped node (version `0`
marks "created but not yet stamped") with the version being saved. -/
def TreeNode.stamp (n : TreeNode) (v : Nat) : TreeNode :=
  if n.version = 0 then { n with version := v } else n

/-- Modelled from the spec: an orphaning tree as the orchestrator sees it —
a possibly-nil root (`tree.root`) plus the Mutable/Frozen state tag of
§4.2 / §9 of the spec (a frozen tree is a read-only snapshot). -/
structure OrphaningTree where
  root : Option TreeNode
  frozen : Bool
deriving DecidableEq, Repr

/-- Modelled from the spec: `orphaningTree.SaveVersion(V)` stamps the
current working version on nodes not yet stamped and freezes the instance.
Orphan-list flushing is not represented: no claim observes it. -/
def OrphaningTree.SaveVersion (t : OrphaningTree) (v : Nat) : OrphaningTree :=
  { root := t.root.map (fun n => n.stamp v), frozen := true }

/-- Modelled from the spec: `Clone()` returns a new orphaning tree sharing
the same root reference, mutable again. -/
def OrphaningTree.Clone (t : OrphaningTree) : OrphaningTree :=
  { root := t.root, frozen := false }

/-- Modelled from the spec: `t.Load(root)` reconstructs a (frozen) tree
whose root is the stored root node. -/
def OrphaningTree.Load (root : TreeNode) : OrphaningTree :=
  { root := some root, frozen := true }

/-- Modelled from the spec: the node store.  `storedRoots` is what
`getRoots` enumerates at load time; `committedRoots` is the durable
version-to-root-hash index; `pendingRoots` / `pendingDeletes` form the
batch accumulated since the last commit; `failCommit` is the fault model
for a storage I/O failure during `commit()`. -/
structure NodeDB where
  storedRoots : List TreeNode
  committedRoots : List (Nat × Bytes)
  pendingRoots : List (Nat × Bytes)
  pendingDeletes : List Nat
  failCommit : Bool
deriving DecidableEq, Repr

/-- Modelled from the spec: `getRoots()` enumerates all stored roots. -/
def NodeDB.getRoots (db : NodeDB) : List TreeNode :=
  db.storedRoots

/-- Modelled from the spec: `SaveRoot(root, version)` adds the root pointer
write to the pending batch. -/
def NodeDB.SaveRoot (db : NodeDB) (root : TreeNode) (version : Nat) : NodeDB :=
  { db with pendingRoots := db.pendingRoots ++ [(version, root.hash)] }

/-- Modelled from the spec: `nodeDB.DeleteVersion(V)` schedules removal of
version `V`'s root pointer (and orphan GC, not represented) in the batch. -/
def NodeDB.DeleteVersion (db : NodeDB) (version : Nat) : NodeDB :=
  { db with pendingDeletes := db.pendingDeletes ++ [version] }

/-- Modelled from the spec: `Commit()` flushes the pending batch
atomically.  On an I/O failure (`failCommit`) the previously committed
state is unaffected and `false` is returned; on success the batch is
applied and `true` is returned. -/
def NodeDB.Commit (db : NodeDB) : NodeDB × Bool :=
  if db.failCommit then
    ({ db with pendingRoots := [], pendingDeletes := [] }, false)
  else
    ({ db with
        committedRoots :=
          (db.committedRoots.filter (fun p => !(db.pendingDeletes.contains p.1)))
            ++ db.pendingRoots,
        pendingRoots := [], pendingDeletes := [] }, true)

/-- Lookup in an association list embedding a Go map. -/
def vlookup {α : Type} : List (Nat × α) → Nat → Option α
  | [], _ => none
  | (k, v) :: rest, k' => if k = k' then some v else vlookup rest k'

/-- Go `delete(m, k)`. -/
def verase {α : Type} (m : List (Nat × α)) (k : Nat) : List (Nat × α) :=
  m.filter (fun p => p.1 != k)

/-- Go `m[k] = v`. -/
def vinsert {α : Type} (m : List (Nat × α)) (k : Nat) (v : α) : List (Nat × α) :=
  (k, v) :: verase m k

@[simp]
theorem vlookup_nil {α : Type} (k : Nat) : vlookup ([] : List (Nat × α)) k = none :=
  rfl

theorem vlookup_verase {α : Type} (m : List (Nat × α)) (k j : Nat) :
    vlookup (verase m k) j = if k = j then none else vlookup m j := by
  induction m with
  | nil => simp [verase]
  | cons p rest ih =>
    obtain ⟨k', v⟩ := p
    by_cases hkk : k' = k
    · subst hkk
      have h1 : verase ((k', v) :: rest) k' = verase rest k' := by
        simp [verase, List.filter_cons]
      rw [h1, ih]
      by_cases hj : k' = j
      · subst hj
        simp
      · simp [vlookup, hj]
    · have h1 : verase ((k', v) :: rest) k = (k', v) :: verase rest k := by
        simp [verase, List.filter_cons, hkk]
      rw [h1]
      by_cases hj : k' = j
      · subst hj
        have hkj : k ≠ k' := fun h => hkk h.symm
        simp [vlookup, hkj]
      · have h2 : vlookup ((k', v) :: verase rest k) j = vlookup (verase rest k) j := by
          simp [vlookup, hj]
        have h3 : vlookup ((k', v) :: rest) j = vlookup rest j := by
          simp [vlookup, hj]
        rw [h2, h3, ih]

theorem vlookup_vinsert_self {α : Type} (m : List (Nat × α)) (k : Nat) (v : α) :
    vlookup (vinsert m k v) k = some v := by
  simp [vinsert, vlookup]

theorem vlookup_vinsert_ne {α : Type} (m : List (Nat × α)) (k j : Nat) (v : α)
    (h : k ≠ j) : vlookup (vinsert m k v) j = vlookup m j := by
  simp [vinsert, vlookup, h, vlookup_verase]

/-- `VersionedTree` from the source: the current working tree (the
embedded `*orphaningTree` field), the map of previously saved versions,
the latest saved version, and the node database. -/
structure VersionedTree where
  orphaningTree : OrphaningTree
  versions : List (Nat × OrphaningTree)
  latestVersion : Nat
  ndb : NodeDB
deriving DecidableEq, Repr

/-- `tree.root` in the source: the embedded working tree's root. -/
def VersionedTree.root (tree : VersionedTree) : Option TreeNode :=
  tree.orphaningTree.root

/-- `NewVersionedTree`: a fresh tree over the given store — nil working
root, no saved versions, `latestVersion` zero. -/
def NewVersionedTree (db : NodeDB) : VersionedTree :=
  { orphaningTree := { root := none, frozen := false }
    versions := []
    latestVersion := 0
    ndb := db }

/-- `LatestVersion` returns the latest saved version of the tree. -/
def VersionedTree.LatestVersion (tree : VersionedTree) : Nat :=
  tree.latestVersion

/-- `VersionExists` returns whether or not a version exists. -/
def VersionedTree.VersionExists (tree : VersionedTree) (version : Nat) : Bool :=
  (vlookup tree.versions version).isSome

/-- The distinct errors `SaveVersion` can return: `VersionAlreadySaved`,
`ErrNilRoot`, "version must be greater than zero", and "version must be
greater than latest". -/
inductive SaveErr where
  | versionAlreadySaved
  | nilRoot
  | zeroVersion
  | notGreaterThanLatest
deriving DecidableEq, Repr

/-- The distinct errors `DeleteVersion` can return: "version must be
greater than 0", "cannot delete latest saved version", and
`ErrVersionDoesNotExist`. -/
inductive DeleteErr where
  | zeroVersion
  | cannotDeleteLatest
  | versionDoesNotExist
deriving DecidableEq, Repr

/-- `ErrVersionDoesNotExist` as returned by the versioned read operations. -/
inductive ReadErr where
  | versionDoesNotExist
deriving DecidableEq, Repr

/-- `SaveVersion` from the source, check-for-check.  In the source the
frozen tree is registered in `versions` before `orphaningTree.SaveVersion`
mutates it in place; since `versions[version]` and `tree.orphaningTree`
alias the same object there, the registered snapshot is the frozen,
stamped one, which the functional embedding makes explicit. -/
def VersionedTree.SaveVersion (tree : VersionedTree) (version : Nat) :
    Except SaveErr (Bytes × VersionedTree) :=
  if (vlookup tree.versions version).isSome then
    .error .versionAlreadySaved
  else
    match tree.orphaningTree.root with
    | none => .error .nilRoot
    | some r =>
      if version = 0 then
        .error .zeroVersion
      else if version ≤ tree.latestVersion then
        .error .notGreaterThanLatest
      else
        let frozen := tree.orphaningTree.SaveVersion version
        let working := frozen.Clone
        let db1 := tree.ndb.SaveRoot (r.stamp version) version
        let db2 := (db1.Commit).1
        .ok ((r.stamp version).hash,
          { orphaningTree := working
            versions := vinsert tree.versions version frozen
            latestVersion := version
            ndb := db2 })

/-- `DeleteVersion` from the source, check-for-check. -/
def VersionedTree.DeleteVersion (tree : VersionedTree) (version : Nat) :
    Except DeleteErr VersionedTree :=
  if version = 0 then
    .error .zeroVersion
  else if version = tree.latestVersion then
    .error .cannotDeleteLatest
  else if (vlookup tree.versions version).isNone then
    .error .versionDoesNotExist
  else
    let db1 := tree.ndb.DeleteVersion version
    let db2 := (db1.Commit).1
    .ok { tree with versions := verase tree.versions version, ndb := db2 }

/-- One iteration of `Load`'s loop body: reconstruct a frozen tree from a
stored root, register it under the root's version, and track the maximum
version as `latestVersion`. -/
def loadOne (tree : VersionedTree) (root : TreeNode) : VersionedTree :=
  let t := OrphaningTree.Load root
  { tree with
      versions := vinsert tree.versions root.version t
      latestVersion := max tree.latestVersion root.version }

/-- `Load` from the source.  `none` models the nil-pointer dereference
(`tree.versions[tree.latestVersion].Clone()` on an absent key yields a nil
`*orphaningTree`, and calling `Clone` on it panics — it is not an error
return). -/
def VersionedTree.Load (tree : VersionedTree) : Option VersionedTree :=
  let tree1 := tree.ndb.getRoots.foldl loadOne tree
  match vlookup tree1.versions tree1.latestVersion with
  | some t => some { tree1 with orphaningTree := t.Clone }
  | none => none

/-- `GetVersioned` from the source, parametric in the frozen tree's `Get`
(the `IAVLTree` point lookup is outside the given source): an absent
version yields the sentinel `(-1, nil, false)` without consulting any
tree; a present version delegates to that version's tree. -/
def VersionedTree.GetVersioned (tGet : OrphaningTree → Bytes → Int × Option Bytes × Bool)
    (tree : VersionedTree) (key : Bytes) (version : Nat) : Int × Option Bytes × Bool :=
  match vlookup tree.versions version with
  | some t => tGet t key
  | none => (-1, none, false)

/-- `GetVersionedWithProof` from the source, parametric in the frozen
tree's `GetWithProof` (result type `α` stands for the Go
`([]byte, KeyProof)` pair). -/
def VersionedTree.GetVersionedWithProof {α : Type}
    (tGetWithProof : OrphaningTree → Bytes → α)
    (tree : VersionedTree) (key : Bytes) (version : Nat) : Except ReadErr α :=
  match vlookup tree.versions version with
  | some t => .ok (tGetWithProof t key)
  | none => .error .versionDoesNotExist

/-- `GetVersionedRangeWithProof` from the source, parametric in the frozen
tree's `GetRangeWithProof`. -/
def VersionedTree.GetVersionedRangeWithProof {α : Type}
    (tGetRange : OrphaningTree → Bytes → Bytes → Int → α)
    (tree : VersionedTree) (startKey endKey : Bytes) (limit : Int) (version : Nat) :
    Except ReadErr α :=
  match vlookup tree.versions version with
  | some t => .ok (tGetRange t startKey endKey limit)
  | none => .error .versionDoesNotExist

/-- `GetVersionedFirstInRangeWithProof` from the source, parametric in the
frozen tree's `GetFirstInRangeWithProof`. -/
def VersionedTree.GetVersionedFirstInRangeWithProof {α : Type}
    (tGetFirst : OrphaningTree → Bytes → Bytes → α)
    (tree : VersionedTree) (startKey endKey : Bytes) (version : Nat) :
    Except ReadErr α :=
  match vlookup tree.versions version with
  | some t => .ok (tGetFirst t startKey endKey)
  | none => .error .versionDoesNotExist

/-- `GetVersionedLastInRangeWithProof` from the source, parametric in the
frozen tree's `GetLastInRangeWithProof`. -/
def VersionedTree.GetVersionedLastInRangeWithProof {α : Type}
    (tGetLast : OrphaningTree → Bytes → Bytes → α)
    (tree : VersionedTree) (startKey endKey : Bytes) (version : Nat) :
    Except ReadErr α :=
  match vlookup tree.versions version with
  | some t => .ok (tGetLast t startKey endKey)
  | none => .error .versionDoesNotExist

/-- Whether an `Except` result is an error. -/
def isErr {ε α : Type} : Except ε α → Bool
  | .error _ => true
  | .ok _ => false

instance {ε α : Type} [DecidableEq ε] [DecidableEq α] : DecidableEq (Except ε α) := by
  intro a b
  cases a <;> cases b
  case error.error e f =>
    exact if h : e = f then .isTrue (by rw [h]) else .isFalse (fun hc => h (by injection hc))
  case error.ok e x => exact .isFalse (fun hc => Except.noConfusion hc)
  case ok.error x e => exact .isFalse (fun hc => Except.noConfusion hc)
  case ok.ok x y =>
    exact if h : x = y then .isTrue (by rw [h]) else .isFalse (fun hc => h (by injection hc))

theorem TreeNode.stamp_hash (n : TreeNode) (v : Nat) : (n.stamp v).hash = n.hash := by
  unfold TreeNode.stamp
  split <;> rfl

/-- A fresh, healthy store used for concrete evaluations. -/
def wdb : NodeDB :=
  { storedRoots := [], committedRoots := [], pendingRoots := [], pendingDeletes := [],
    failCommit := false }

/-- A concrete unstamped root node. -/
def wNode : TreeNode := { hash := [7], version := 0 }

/-- A concrete tree with a working root, no saved versions yet. -/
def wTree : VersionedTree :=
  { orphaningTree := { root := some wNode, frozen := false }
    versions := []
    latestVersion := 0
    ndb := wdb }

/-- The state `wTree.SaveVersion 1` produces. -/
def wTree1 : VersionedTree :=
  { orphaningTree := { root := some { hash := [7], version := 1 }, frozen := false }
    versions := [(1, { root := some { hash := [7], version := 1 }, frozen := true })]
    latestVersion := 1
    ndb := { storedRoots := [], committedRoots := [(1, [7])], pendingRoots := [],
             pendingDeletes := [], failCommit := false } }

/-- C1: `SaveVersion` is strictly monotonic — with `V ≤ latestVersion` it
returns an error in every tree state, and after a first successful
`SaveVersion V` a second call with the same `V` fails with the
`VersionAlreadySaved` error. -/
theorem C1_saveVersion_strictly_monotonic (tree : VersionedTree) (V : Nat) :
    (V ≤ tree.latestVersion → isErr (tree.SaveVersion V) = true) ∧
    (∀ res, tree.SaveVersion V = .ok res →
      res.2.SaveVersion V = .error SaveErr.versionAlreadySaved) := by
  constructor
  · intro hle
    unfold VersionedTree.SaveVersion
    repeat' split
    all_goals rfl
  · intro res hok
    unfold VersionedTree.SaveVersion at hok
    split at hok
    · exact Except.noConfusion hok
    · split at hok
      · exact Except.noConfusion hok
      · split at hok
        · exact Except.noConfusion hok
        · split at hok
          · exact Except.noConfusion hok
          · injection hok with h1
            subst h1
            simp [VersionedTree.SaveVersion, vlookup_vinsert_self]

/-- Witness for C1 at concrete inputs: `SaveVersion 0` errors on `wTree`
(`0 ≤ latestVersion`), and after `wTree.SaveVersion 1` succeeds with state
`wTree1`, saving version `1` again fails with `VersionAlreadySaved`. -/
theorem C1_witness :
    isErr (wTree.SaveVersion 0) = true ∧
    wTree1.SaveVersion 1 = Except.error SaveErr.versionAlreadySaved :=
  ⟨(C1_saveVersion_strictly_monotonic wTree 0).1 (by decide),
   (C1_saveVersion_strictly_monotonic wTree 1).2 ([7], wTree1) (by rfl)⟩

/-- C2 counterexample: on a fresh tree, version `0` is not in the version
map, yet `DeleteVersion 0` fails with the "version must be greater than 0"
error, not with `VersionDoesNotExist` as the claim states. -/
theorem C2_counterexample :
    vlookup (NewVersionedTree wdb).versions 0 = none ∧
    (NewVersionedTree wdb).DeleteVersion 0 = Except.error DeleteErr.zeroVersion ∧
    (NewVersionedTree wdb).DeleteVersion 0 ≠ Except.error DeleteErr.versionDoesNotExist := by
  refine ⟨rfl, rfl, ?_⟩
  intro hc
  have h2 : DeleteErr.zeroVersion = DeleteErr.versionDoesNotExist := by
    have h1 : Except.error (α := VersionedTree) DeleteErr.zeroVersion
        = Except.error DeleteErr.versionDoesNotExist := hc
    injection h1
  exact DeleteErr.noConfusion h2

/-- C2 amended: `DeleteVersion latestVersion` fails with
`CannotDeleteLatest` whenever `latestVersion ≠ 0`; an unknown version
other than `0` and `latestVersion` fails with `VersionDoesNotExist`; and
`DeleteVersion 0` fails with the "version must be greater than 0" error. -/
theorem C2_deleteVersion_errors (tree : VersionedTree) (V : Nat) :
    (tree.latestVersion ≠ 0 →
      tree.DeleteVersion tree.latestVersion = .error DeleteErr.cannotDeleteLatest) ∧
    (V ≠ 0 → V ≠ tree.latestVersion → vlookup tree.versions V = none →
      tree.DeleteVersion V = .error DeleteErr.versionDoesNotExist) ∧
    tree.DeleteVersion 0 = .error DeleteErr.zeroVersion := by
  refine ⟨?_, ?_, ?_⟩
  · intro h0
    simp [VersionedTree.DeleteVersion, h0]
  · intro h0 hlat hnone
    simp [VersionedTree.DeleteVersion, h0, hlat, hnone]
  · simp [VersionedTree.DeleteVersion]

/-- Witness for the amended C2 at the concrete state `wTree1`
(`latestVersion = 1`, version map `{1}`): deleting `1` hits
`CannotDeleteLatest`, deleting the unknown `2` hits `VersionDoesNotExist`,
deleting `0` hits the zero-version error. -/
theorem C2_witness :
    wTree1.DeleteVersion 1 = Except.error DeleteErr.cannotDeleteLatest ∧
    wTree1.DeleteVersion 2 = Except.error DeleteErr.versionDoesNotExist ∧
    wTree1.DeleteVersion 0 = Except.error DeleteErr.zeroVersion := by
  have h := C2_deleteVersion_errors wTree1 2
  exact ⟨h.1 (by decide), h.2.1 (by decide) (by decide) (by rfl), h.2.2⟩

/-- The state component of a `SaveVersion` result. -/
def saveResultState (r : Except SaveErr (Bytes × VersionedTree)) : Option VersionedTree :=
  match r with
  | .ok p => some p.2
  | .error _ => none

/-- A store whose commits fail (storage I/O fault model). -/
def faildb : NodeDB :=
  { storedRoots := [], committedRoots := [], pendingRoots := [], pendingDeletes := [],
    failCommit := true }

/-- A concrete tree with a working root over the failing store. -/
def failTree : VersionedTree :=
  { orphaningTree := { root := some wNode, frozen := false }
    versions := []
    latestVersion := 0
    ndb := faildb }

/-- The state `failTree.SaveVersion 1` produces: the in-memory map and
`latestVersion` are updated even though the commit failed. -/
def failTree1 : VersionedTree :=
  { orphaningTree := { root := some { hash := [7], version := 1 }, frozen := false }
    versions := [(1, { root := some { hash := [7], version := 1 }, frozen := true })]
    latestVersion := 1
    ndb := faildb }

/-- C3 counterexample: on `failTree` the commit inside `SaveVersion 1`
fails, yet afterwards the in-memory `versions` map contains `1` and
`latestVersion` is `1` — they were updated before the commit, not "not
until the commit succeeds" as the claim states. -/
theorem C3_counterexample :
    failTree.ndb.failCommit = true ∧
    ((failTree.ndb.SaveRoot (wNode.stamp 1) 1).Commit).2 = false ∧
    failTree.versions = [] ∧
    failTree.latestVersion = 0 ∧
    (saveResultState (failTree.SaveVersion 1)).map
      (fun t => ((vlookup t.versions 1).isSome, t.latestVersion)) = some (true, 1) :=
  ⟨rfl, rfl, rfl, rfl, rfl⟩

/-- C3 amended: a failing commit leaves the previously committed store
state unaffected, but `SaveVersion` updates `versions` and
`latestVersion` before issuing the commit and ignores its result, so on a
commit failure they are updated all the same. -/
theorem C3_commit_failure_state (tree : VersionedTree) (V : Nat)
    (hfail : tree.ndb.failCommit = true) :
    ∀ res, tree.SaveVersion V = .ok res →
      res.2.latestVersion = V ∧
      (vlookup res.2.versions V).isSome = true ∧
      res.2.ndb.committedRoots = tree.ndb.committedRoots := by
  intro res hok
  unfold VersionedTree.SaveVersion at hok
  split at hok
  · exact Except.noConfusion hok
  split at hok
  · exact Except.noConfusion hok
  split at hok
  · exact Except.noConfusion hok
  split at hok
  · exact Except.noConfusion hok
  injection hok with h1
  subst h1
  refine ⟨rfl, by simp [vlookup_vinsert_self], ?_⟩
  simp [NodeDB.Commit, NodeDB.SaveRoot, hfail]

/-- Witness for the amended C3 at `failTree`: `SaveVersion 1` over the
failing store still records version `1` in memory while the committed
root index stays unchanged. -/
theorem C3_witness :
    failTree.ndb.failCommit = true ∧
    failTree.SaveVersion 1 = Except.ok ([7], failTree1) ∧
    failTree1.latestVersion = 1 ∧
    (vlookup failTree1.versions 1).isSome = true ∧
    failTree1.ndb.committedRoots = failTree.ndb.committedRoots := by
  have h := C3_commit_failure_state failTree 1 rfl ([7], failTree1) (by rfl)
  exact ⟨rfl, rfl, h.1, h.2.1, h.2.2⟩

/-- C4: with a non-nil working root, `V` unsaved and `V > latestVersion`,
`SaveVersion V` succeeds: the frozen working tree is registered under
`versions[V]`, `latestVersion` becomes `V`, the working tree becomes a
fresh (mutable) clone of the frozen snapshot sharing its root, and the
returned bytes are the new root's hash. -/
theorem C4_saveVersion_success (tree : VersionedTree) (V : Nat) (r : TreeNode)
    (hroot : tree.orphaningTree.root = some r)
    (hnew : vlookup tree.versions V = none)
    (hgt : tree.latestVersion < V) :
    tree.SaveVersion V =
      .ok (r.hash,
        { orphaningTree := (tree.orphaningTree.SaveVersion V).Clone
          versions := vinsert tree.versions V (tree.orphaningTree.SaveVersion V)
          latestVersion := V
          ndb := ((tree.ndb.SaveRoot (r.stamp V) V).Commit).1 }) ∧
    (tree.orphaningTree.SaveVersion V).frozen = true ∧
    (tree.orphaningTree.SaveVersion V).Clone.root = (tree.orphaningTree.SaveVersion V).root := by
  have hV0 : ¬V = 0 := by omega
  have hVle : ¬V ≤ tree.latestVersion := by omega
  refine ⟨?_, rfl, rfl⟩
  simp [VersionedTree.SaveVersion, hroot, hnew, hV0, hVle, TreeNode.stamp_hash]

/-- Witness for C4: saving version `1` on the concrete `wTree`. -/
theorem C4_witness :
    wTree.orphaningTree.root = some wNode ∧
    vlookup wTree.versions 1 = none ∧
    wTree.latestVersion < 1 ∧
    wTree.SaveVersion 1 = Except.ok (wNode.hash,
      { orphaningTree := (wTree.orphaningTree.SaveVersion 1).Clone
        versions := vinsert wTree.versions 1 (wTree.orphaningTree.SaveVersion 1)
        latestVersion := 1
        ndb := ((wTree.ndb.SaveRoot (wNode.stamp 1) 1).Commit).1 }) :=
  ⟨rfl, rfl, by decide, (C4_saveVersion_success wTree 1 wNode rfl rfl (by decide)).1⟩

/-- A concrete frozen snapshot for version 1. -/
def tA : OrphaningTree := { root := some { hash := [1], version := 1 }, frozen := true }

/-- A concrete frozen snapshot for version 2. -/
def tB : OrphaningTree := { root := some { hash := [2], version := 2 }, frozen := true }

/-- A concrete tree holding saved versions 1 and 2. -/
def wTree2 : VersionedTree :=
  { orphaningTree := tB.Clone
    versions := [(1, tA), (2, tB)]
    latestVersion := 2
    ndb := wdb }

/-- The state `wTree2.DeleteVersion 1` produces. -/
def wTree2' : VersionedTree :=
  { orphaningTree := tB.Clone
    versions := [(2, tB)]
    latestVersion := 2
    ndb := wdb }

/-- C5: after a successful `DeleteVersion V`, `VersionExists V` is false,
every other version's entry in the map is unchanged, and the working tree
and `latestVersion` are unchanged. -/
theorem C5_deleteVersion_frame (tree : VersionedTree) (V : Nat) :
    ∀ tree', tree.DeleteVersion V = .ok tree' →
      tree'.VersionExists V = false ∧
      (∀ W, W ≠ V → vlookup tree'.versions W = vlookup tree.versions W) ∧
      tree'.orphaningTree = tree.orphaningTree ∧
      tree'.latestVersion = tree.latestVersion := by
  intro tree' hok
  unfold VersionedTree.DeleteVersion at hok
  split at hok
  · exact Except.noConfusion hok
  split at hok
  · exact Except.noConfusion hok
  split at hok
  · exact Except.noConfusion hok
  injection hok with h1
  subst h1
  refine ⟨?_, ?_, rfl, rfl⟩
  · simp [VersionedTree.VersionExists, vlookup_verase]
  · intro W hW
    rw [vlookup_verase, if_neg (fun h => hW h.symm)]

/-- Witness for C5: deleting version 1 from `wTree2` keeps version 2's
entry, the working tree, and `latestVersion` intact. -/
theorem C5_witness :
    wTree2.DeleteVersion 1 = Except.ok wTree2' ∧
    wTree2'.VersionExists 1 = false ∧
    vlookup wTree2'.versions 2 = vlookup wTree2.versions 2 ∧
    wTree2'.orphaningTree = wTree2.orphaningTree ∧
    wTree2'.latestVersion = wTree2.latestVersion := by
  have h := C5_deleteVersion_frame wTree2 1 wTree2' (by rfl)
  exact ⟨rfl, h.1, h.2.1 2 (by decide), h.2.2.1, h.2.2.2⟩

/-- C6: every versioned read resolves `V` against the version map; when
`V` is absent it fails with the distinguished condition (`(-1, nil,
false)` for `GetVersioned`, `ErrVersionDoesNotExist` for the proof
variants) without consulting any tree, and when `V` is present it
delegates read-only to that version's frozen tree. -/
theorem C6_versioned_reads {α β γ δ : Type} (tree : VersionedTree) (V : Nat)
    (key startKey endKey : Bytes) (limit : Int)
    (tGet : OrphaningTree → Bytes → Int × Option Bytes × Bool)
    (tGetWithProof : OrphaningTree → Bytes → α)
    (tGetRange : OrphaningTree → Bytes → Bytes → Int → β)
    (tGetFirst : OrphaningTree → Bytes → Bytes → γ)
    (tGetLast : OrphaningTree → Bytes → Bytes → δ) :
    (vlookup tree.versions V = none →
      VersionedTree.GetVersioned tGet tree key V = (-1, none, false) ∧
      VersionedTree.GetVersionedWithProof tGetWithProof tree key V
        = .error ReadErr.versionDoesNotExist ∧
      VersionedTree.GetVersionedRangeWithProof tGetRange tree startKey endKey limit V
        = .error ReadErr.versionDoesNotExist ∧
      VersionedTree.GetVersionedFirstInRangeWithProof tGetFirst tree startKey endKey V
        = .error ReadErr.versionDoesNotExist ∧
      VersionedTree.GetVersionedLastInRangeWithProof tGetLast tree startKey endKey V
        = .error ReadErr.versionDoesNotExist) ∧
    (∀ t, vlookup tree.versions V = some t →
      VersionedTree.GetVersioned tGet tree key V = tGet t key ∧
      VersionedTree.GetVersionedWithProof tGetWithProof tree key V
        = .ok (tGetWithProof t key) ∧
      VersionedTree.GetVersionedRangeWithProof tGetRange tree startKey endKey limit V
        = .ok (tGetRange t startKey endKey limit) ∧
      VersionedTree.GetVersionedFirstInRangeWithProof tGetFirst tree startKey endKey V
        = .ok (tGetFirst t startKey endKey) ∧
      VersionedTree.GetVersionedLastInRangeWithProof tGetLast tree startKey endKey V
        = .ok (tGetLast t startKey endKey)) := by
  constructor
  · intro hn
    refine ⟨?_, ?_, ?_, ?_, ?_⟩ <;>
      simp [VersionedTree.GetVersioned, VersionedTree.GetVersionedWithProof,
        VersionedTree.GetVersionedRangeWithProof,
        VersionedTree.GetVersionedFirstInRangeWithProof,
        VersionedTree.GetVersionedLastInRangeWithProof, hn]
  · intro t ht
    refine ⟨?_, ?_, ?_, ?_, ?_⟩ <;>
      simp [VersionedTree.GetVersioned, VersionedTree.GetVersionedWithProof,
        VersionedTree.GetVersionedRangeWithProof,
        VersionedTree.GetVersionedFirstInRangeWithProof,
        VersionedTree.GetVersionedLastInRangeWithProof, ht]

/-- Witness for C6 on `wTree2` with unit-valued delegates: version 5 is
absent (sentinel / error results), version 2 is present (delegation). -/
theorem C6_witness :
    (VersionedTree.GetVersioned (fun _ _ => (0, none, true)) wTree2 [3] 5
      = (-1, none, false) ∧
     VersionedTree.GetVersionedWithProof (fun _ _ => (0 : Nat)) wTree2 [3] 5
      = .error ReadErr.versionDoesNotExist ∧
     VersionedTree.GetVersionedRangeWithProof (fun _ _ _ _ => (0 : Nat)) wTree2 [] [9] 4 5
      = .error ReadErr.versionDoesNotExist ∧
     VersionedTree.GetVersionedFirstInRangeWithProof (fun _ _ _ => (0 : Nat)) wTree2 [] [9] 5
      = .error ReadErr.versionDoesNotExist ∧
     VersionedTree.GetVersionedLastInRangeWithProof (fun _ _ _ => (0 : Nat)) wTree2 [] [9] 5
      = .error ReadErr.versionDoesNotExist) ∧
    (VersionedTree.GetVersioned (fun _ _ => (0, none, true)) wTree2 [3] 2
      = (0, none, true) ∧
     VersionedTree.GetVersionedWithProof (fun _ _ => (0 : Nat)) wTree2 [3] 2 = .ok 0 ∧
     VersionedTree.GetVersionedRangeWithProof (fun _ _ _ _ => (0 : Nat)) wTree2 [] [9] 4 2
      = .ok 0 ∧
     VersionedTree.GetVersionedFirstInRangeWithProof (fun _ _ _ => (0 : Nat)) wTree2 [] [9] 2
      = .ok 0 ∧
     VersionedTree.GetVersionedLastInRangeWithProof (fun _ _ _ => (0 : Nat)) wTree2 [] [9] 2
      = .ok 0) :=
  ⟨(C6_versioned_reads wTree2 5 [3] [] [9] 4 (fun _ _ => (0, none, true))
      (fun _ _ => (0 : Nat)) (fun _ _ _ _ => (0 : Nat)) (fun _ _ _ => (0 : Nat))
      (fun _ _ _ => (0 : Nat))).1 (by rfl),
   (C6_versioned_reads wTree2 2 [3] [] [9] 4 (fun _ _ => (0, none, true))
      (fun _ _ => (0 : Nat)) (fun _ _ _ _ => (0 : Nat)) (fun _ _ _ => (0 : Nat))
      (fun _ _ _ => (0 : Nat))).2 tB (by rfl)⟩

theorem loadOne_latestVersion (tree : VersionedTree) (r : TreeNode) :
    (loadOne tree r).latestVersion = max tree.latestVersion r.version :=
  rfl

theorem loadOne_versions (tree : VersionedTree) (r : TreeNode) :
    (loadOne tree r).versions = vinsert tree.versions r.version (OrphaningTree.Load r) :=
  rfl

theorem latestVersion_le_foldl_loadOne (roots : List TreeNode) (tree : VersionedTree) :
    tree.latestVersion ≤ (roots.foldl loadOne tree).latestVersion := by
  induction roots generalizing tree with
  | nil => exact Nat.le_refl _
  | cons r rest ih =>
    rw [List.foldl_cons]
    calc tree.latestVersion ≤ (loadOne tree r).latestVersion := by
          rw [loadOne_latestVersion]
          exact Nat.le_max_left _ _
      _ ≤ _ := ih _

/-- A concrete stored root for version 1. -/
def n1 : TreeNode := { hash := [8], version := 1 }

/-- A concrete stored root for version 2. -/
def n2 : TreeNode := { hash := [9], version := 2 }

/-- A fresh tree over a store holding roots for versions 2 and 1. -/
def loadTree : VersionedTree :=
  { orphaningTree := { root := none, frozen := false }
    versions := []
    latestVersion := 0
    ndb := { storedRoots := [n2, n1], committedRoots := [], pendingRoots := [],
             pendingDeletes := [], failCommit := false } }

/-- The state `loadTree.Load` produces. -/
def loadTree' : VersionedTree :=
  { orphaningTree := { root := some n2, frozen := false }
    versions := [(1, { root := some n1, frozen := true }),
                 (2, { root := some n2, frozen := true })]
    latestVersion := 2
    ndb := loadTree.ndb }

/-- C7: `latestVersion` is monotonically non-decreasing — no successful
`SaveVersion`, `DeleteVersion` or `Load` makes `LatestVersion` smaller
than before (the versioned reads return no new state at all). -/
theorem C7_latestVersion_monotonic (tree : VersionedTree) :
    (∀ V res, tree.SaveVersion V = .ok res →
      tree.LatestVersion ≤ res.2.LatestVersion) ∧
    (∀ V tree', tree.DeleteVersion V = .ok tree' →
      tree.LatestVersion ≤ tree'.LatestVersion) ∧
    (∀ tree', tree.Load = some tree' →
      tree.LatestVersion ≤ tree'.LatestVersion) := by
  refine ⟨?_, ?_, ?_⟩
  · intro V res hok
    unfold VersionedTree.SaveVersion at hok
    split at hok
    · exact Except.noConfusion hok
    split at hok
    · exact Except.noConfusion hok
    split at hok
    · exact Except.noConfusion hok
    split at hok
    · exact Except.noConfusion hok
    next hno =>
      injection hok with h1
      subst h1
      exact Nat.le_of_not_le hno
  · intro V tree' hok
    unfold VersionedTree.DeleteVersion at hok
    split at hok
    · exact Except.noConfusion hok
    split at hok
    · exact Except.noConfusion hok
    split at hok
    · exact Except.noConfusion hok
    injection hok with h1
    subst h1
    exact Nat.le_refl _
  · intro tree' hload
    unfold VersionedTree.Load at hload
    dsimp only at hload
    split at hload
    · injection hload with h1
      subst h1
      exact latestVersion_le_foldl_loadOne _ _
    · exact Option.noConfusion hload

/-- Witness for C7 at concrete states: saving version 1 on `wTree`,
deleting version 1 from `wTree2`, and loading two stored roots. -/
theorem C7_witness :
    wTree.LatestVersion ≤ wTree1.LatestVersion ∧
    wTree2.LatestVersion ≤ wTree2'.LatestVersion ∧
    loadTree.LatestVersion ≤ loadTree'.LatestVersion :=
  ⟨(C7_latestVersion_monotonic wTree).1 1 ([7], wTree1) (by rfl),
   (C7_latestVersion_monotonic wTree2).2.1 1 wTree2' (by rfl),
   (C7_latestVersion_monotonic loadTree).2.2 loadTree' (by rfl)⟩

theorem foldl_loadOne_latestVersion (roots : List TreeNode) (tree : VersionedTree) :
    (roots.foldl loadOne tree).latestVersion =
      roots.foldl (fun a r => max a r.version) tree.latestVersion := by
  induction roots generalizing tree with
  | nil => rfl
  | cons r rest ih =>
    rw [List.foldl_cons, List.foldl_cons, ih, loadOne_latestVersion]

theorem foldl_loadOne_lookup_other (roots : List TreeNode) (tree : VersionedTree)
    (k : Nat) (h : ∀ r ∈ roots, r.version ≠ k) :
    vlookup (roots.foldl loadOne tree).versions k = vlookup tree.versions k := by
  induction roots generalizing tree with
  | nil => rfl
  | cons r rest ih =>
    rw [List.foldl_cons, ih _ (fun r' hr' => h r' (List.mem_cons_of_mem _ hr')),
      loadOne_versions,
      vlookup_vinsert_ne _ _ _ _ (h r (List.mem_cons_self _ _))]

theorem foldl_loadOne_lookup_mem (roots : List TreeNode) (tree : VersionedTree)
    (r : TreeNode) (hmem : r ∈ roots)
    (hdist : (roots.map TreeNode.version).Nodup) :
    vlookup (roots.foldl loadOne tree).versions r.version
      = some (OrphaningTree.Load r) := by
  induction roots generalizing tree with
  | nil => cases hmem
  | cons r0 rest ih =>
    rw [List.map_cons, List.nodup_cons] at hdist
    rw [List.foldl_cons]
    rcases List.mem_cons.mp hmem with heq | hmem'
    · subst heq
      have hnone : ∀ r' ∈ rest, r'.version ≠ r.version := by
        intro r' hr' he
        exact hdist.1 (he ▸ List.mem_map_of_mem TreeNode.version hr')
      rw [foldl_loadOne_lookup_other rest _ _ hnone, loadOne_versions,
        vlookup_vinsert_self]
    · exact ih _ hmem' hdist.2

theorem foldl_loadOne_lookup_isSome (roots : List TreeNode) (tree : VersionedTree)
    (k : Nat)
    (h : (vlookup (roots.foldl loadOne tree).versions k).isSome = true) :
    (vlookup tree.versions k).isSome = true ∨ ∃ r ∈ roots, r.version = k := by
  induction roots generalizing tree with
  | nil => exact Or.inl h
  | cons r0 rest ih =>
    rw [List.foldl_cons] at h
    rcases ih _ h with h' | ⟨r, hr, hv⟩
    · by_cases hk : r0.version = k
      · exact Or.inr ⟨r0, List.mem_cons_self _ _, hk⟩
      · rw [loadOne_versions, vlookup_vinsert_ne _ _ _ _ hk] at h'
        exact Or.inl h'
    · exact Or.inr ⟨r, List.mem_cons_of_mem _ hr, hv⟩

theorem loadOne_latest_lookup_isSome (tree : VersionedTree) (r : TreeNode)
    (h : (vlookup tree.versions tree.latestVersion).isSome = true
      ∨ tree.latestVersion = 0) :
    (vlookup (loadOne tree r).versions (loadOne tree r).latestVersion).isSome
      = true := by
  rw [loadOne_versions, loadOne_latestVersion]
  by_cases hge : tree.latestVersion ≤ r.version
  · rw [Nat.max_eq_right hge, vlookup_vinsert_self]
    rfl
  · have hlt : r.version < tree.latestVersion := Nat.lt_of_not_le hge
    rw [Nat.max_eq_left (Nat.le_of_lt hlt),
      vlookup_vinsert_ne _ _ _ _ (Nat.ne_of_lt hlt)]
    rcases h with h | h
    · exact h
    · omega

theorem foldl_loadOne_latest_lookup_isSome (roots : List TreeNode)
    (tree : VersionedTree)
    (h : (vlookup tree.versions tree.latestVersion).isSome = true
      ∨ tree.latestVersion = 0)
    (hne : roots ≠ []) :
    (vlookup (roots.foldl loadOne tree).versions
      (roots.foldl loadOne tree).latestVersion).isSome = true := by
  induction roots generalizing tree with
  | nil => exact absurd rfl hne
  | cons r0 rest ih =>
    rw [List.foldl_cons]
    by_cases hr : rest = []
    · subst hr
      exact loadOne_latest_lookup_isSome tree r0 h
    · exact ih _ (Or.inl (loadOne_latest_lookup_isSome tree r0 h)) hr

/-- C8: on a fresh tree whose store holds at least one root (with
pairwise-distinct versions), `Load` reconstructs one frozen tree per
stored root registered under that root's version (and nothing else), sets
`latestVersion` to the maximum stored version, and sets the working tree
to a clone of the tree of that maximum version. -/
theorem C8_load (tree : VersionedTree)
    (hv : tree.versions = []) (hl : tree.latestVersion = 0)
    (hne : tree.ndb.getRoots ≠ [])
    (hdist : (tree.ndb.getRoots.map TreeNode.version).Nodup) :
    ∃ tree', tree.Load = some tree' ∧
      tree'.latestVersion = (tree.ndb.getRoots.map TreeNode.version).foldl max 0 ∧
      (∀ r ∈ tree.ndb.getRoots,
        vlookup tree'.versions r.version = some (OrphaningTree.Load r)) ∧
      (∀ k, (vlookup tree'.versions k).isSome = true →
        ∃ r ∈ tree.ndb.getRoots, r.version = k) ∧
      (∃ t, vlookup tree'.versions tree'.latestVersion = some t ∧
        tree'.orphaningTree = t.Clone) := by
  have hQ := foldl_loadOne_latest_lookup_isSome tree.ndb.getRoots tree (Or.inr hl) hne
  obtain ⟨t, ht⟩ := Option.isSome_iff_exists.mp hQ
  refine ⟨{ tree.ndb.getRoots.foldl loadOne tree with orphaningTree := t.Clone },
    ?_, ?_, ?_, ?_, ⟨t, ht, rfl⟩⟩
  · unfold VersionedTree.Load
    dsimp only
    rw [ht]
  · show (tree.ndb.getRoots.foldl loadOne tree).latestVersion = _
    rw [foldl_loadOne_latestVersion, hl, List.foldl_map]
  · intro r hr
    exact foldl_loadOne_lookup_mem tree.ndb.getRoots tree r hr hdist
  · intro k hk
    rcases foldl_loadOne_lookup_isSome tree.ndb.getRoots tree k hk with h' | h'
    · rw [hv] at h'
      exact absurd h' (by simp)
    · exact h'

/-- Witness for C8: loading `loadTree`, whose store holds roots for
versions 2 and 1. -/
theorem C8_witness :
    loadTree.versions = [] ∧
    loadTree.latestVersion = 0 ∧
    loadTree.ndb.getRoots ≠ [] ∧
    (loadTree.ndb.getRoots.map TreeNode.version).Nodup ∧
    (∃ tree', loadTree.Load = some tree' ∧
      tree'.latestVersion = (loadTree.ndb.getRoots.map TreeNode.version).foldl max 0 ∧
      (∀ r ∈ loadTree.ndb.getRoots,
        vlookup tree'.versions r.version = some (OrphaningTree.Load r)) ∧
      (∀ k, (vlookup tree'.versions k).isSome = true →
        ∃ r ∈ loadTree.ndb.getRoots, r.version = k) ∧
      (∃ t, vlookup tree'.versions tree'.latestVersion = some t ∧
        tree'.orphaningTree = t.Clone)) :=
  ⟨rfl, rfl, by decide, by decide,
   C8_load loadTree rfl rfl (by decide) (by decide)⟩

/-- The implicit invariant of C9: every key of the version map is
positive and at most `latestVersion`. -/
def goodVersions (tree : VersionedTree) : Prop :=
  ∀ k, (vlookup tree.versions k).isSome = true → 0 < k ∧ k ≤ tree.latestVersion

theorem foldl_loadOne_goodVersions (roots : List TreeNode) (tree : VersionedTree)
    (hg : goodVersions tree) (hpos : ∀ r ∈ roots, 0 < r.version) :
    goodVersions (roots.foldl loadOne tree) := by
  induction roots generalizing tree with
  | nil => exact hg
  | cons r0 rest ih =>
    rw [List.foldl_cons]
    refine ih _ ?_ (fun r hr => hpos r (List.mem_cons_of_mem _ hr))
    intro k hk
    rw [loadOne_versions] at hk
    rw [loadOne_latestVersion]
    by_cases hkv : r0.version = k
    · subst hkv
      exact ⟨hpos r0 (List.mem_cons_self _ _), Nat.le_max_right _ _⟩
    · rw [vlookup_vinsert_ne _ _ _ _ hkv] at hk
      have h := hg k hk
      exact ⟨h.1, Nat.le_trans h.2 (Nat.le_max_left _ _)⟩

/-- C9: every version map key is positive and at most `latestVersion`;
the invariant holds initially and is preserved by `SaveVersion`,
`DeleteVersion`, and `Load` (for `Load`, under the store-side guarantee
that every stored root carries the positive version `SaveVersion`
enforced when it was written). -/
theorem C9_version_keys_invariant :
    (∀ db, goodVersions (NewVersionedTree db)) ∧
    (∀ tree, goodVersions tree → ∀ V res, tree.SaveVersion V = .ok res →
      goodVersions res.2) ∧
    (∀ tree, goodVersions tree → ∀ V tree', tree.DeleteVersion V = .ok tree' →
      goodVersions tree') ∧
    (∀ tree, goodVersions tree → (∀ r ∈ tree.ndb.getRoots, 0 < r.version) →
      ∀ tree', tree.Load = some tree' → goodVersions tree') := by
  refine ⟨?_, ?_, ?_, ?_⟩
  · intro db k hk
    exact absurd hk (by simp [NewVersionedTree])
  · intro tree hg V res hok
    unfold VersionedTree.SaveVersion at hok
    split at hok
    · exact Except.noConfusion hok
    split at hok
    · exact Except.noConfusion hok
    split at hok
    · exact Except.noConfusion hok
    split at hok
    · exact Except.noConfusion hok
    rename_i hV0 hVle
    injection hok with h1
    subst h1
    intro k hk
    dsimp only at hk ⊢
    by_cases hkV : V = k
    · subst hkV
      exact ⟨Nat.pos_of_ne_zero hV0, Nat.le_refl _⟩
    · rw [vlookup_vinsert_ne _ _ _ _ hkV] at hk
      have h := hg k hk
      have : ¬V ≤ tree.latestVersion := hVle
      exact ⟨h.1, by omega⟩
  · intro tree hg V tree' hok
    unfold VersionedTree.DeleteVersion at hok
    split at hok
    · exact Except.noConfusion hok
    split at hok
    · exact Except.noConfusion hok
    split at hok
    · exact Except.noConfusion hok
    injection hok with h1
    subst h1
    intro k hk
    dsimp only at hk ⊢
    rw [vlookup_verase] at hk
    by_cases hVk : V = k
    · rw [if_pos hVk] at hk
      exact absurd hk (by simp)
    · rw [if_neg hVk] at hk
      exact hg k hk
  · intro tree hg hpos tree' hload
    unfold VersionedTree.Load at hload
    dsimp only at hload
    split at hload
    · injection hload with h1
      subst h1
      intro k hk
      dsimp only at hk ⊢
      exact foldl_loadOne_goodVersions tree.ndb.getRoots tree hg hpos k hk
    · exact Option.noConfusion hload

/-- Witness for C9 at concrete states: the fresh tree, the save producing
`wTree1`, the delete producing `wTree2'`, and the load producing
`loadTree'`. -/
theorem C9_witness :
    goodVersions (NewVersionedTree wdb) ∧
    goodVersions wTree1 ∧
    goodVersions wTree2' ∧
    goodVersions loadTree' := by
  have hg0 : goodVersions wTree := by
    intro k hk
    exact absurd hk (by simp [wTree])
  have hgL : goodVersions loadTree := by
    intro k hk
    exact absurd hk (by simp [loadTree])
  have hg2 : goodVersions wTree2 := by
    intro k hk
    by_cases h1 : (1 : Nat) = k
    · subst h1
      exact ⟨by decide, by decide⟩
    · by_cases h2 : (2 : Nat) = k
      · subst h2
        exact ⟨by decide, by decide⟩
      · exact absurd hk (by simp [wTree2, vlookup, h1, h2])
  exact ⟨C9_version_keys_invariant.1 wdb,
    C9_version_keys_invariant.2.1 wTree hg0 1 ([7], wTree1) (by rfl),
    C9_version_keys_invariant.2.2.1 wTree2 hg2 1 wTree2' (by rfl),
    C9_version_keys_invariant.2.2.2 loadTree hgL (by decide) loadTree' (by rfl)⟩

/-- C10: `Load` is only safe when the store holds at least one root — on
a fresh tree with no stored roots it looks up `versions[latestVersion]`
for `latestVersion = 0`, finds nothing, and calls `Clone` on the nil
tree; the embedding returns `none`, modelling that nil-pointer
dereference rather than an error return or a valid empty state. -/
theorem C10_load_no_roots (tree : VersionedTree)
    (hroots : tree.ndb.getRoots = []) (hv : tree.versions = [])
    (hl : tree.latestVersion = 0) :
    tree.Load = none := by
  simp [VersionedTree.Load, hroots, hv, hl]

/-- Witness for C10: loading a freshly created tree over an empty store. -/
theorem C10_witness :
    (NewVersionedTree wdb).ndb.getRoots = [] ∧
    (NewVersionedTree wdb).versions = [] ∧
    (NewVersionedTree wdb).latestVersion = 0 ∧
    (NewVersionedTree wdb).Load = none :=
  ⟨rfl, rfl, rfl, C10_load_no_roots (NewVersionedTree wdb) rfl rfl rfl⟩

end Iavl
